import Mathlib

/-!
Verification of the etcdmate membership-reconciliation engine.

The embedding follows the Go source: `main.go` (reconciler) and the
`etcdclient` package (admin client).  HTTP effects are modelled by a
`World` supplying, for each request the program can make, either a
transport error (`Except.error`) or the decoded response.  Every client
operation returns the same data the Go function computes from that
response, and the reconciler run additionally records the trace of
health probes and admin mutation calls it issues.
-/

namespace Etcdmate

/-- Record `etcdclient.Member` (README.md lines 309-314): id, name, clientURL,
peerURL, all strings. -/
structure Member where
  ID : String
  Name : String
  ClientURL : String
  PeerURL : String
deriving DecidableEq, Repr

/-- Record `etcdclient.jsonMember` (README.md lines 317-322): one decoded element
of the `members` array returned by `GET /v2/members`. -/
structure JsonMember where
  Id : String
  Name : String
  ClientURLs : List String
  PeerURLs : List String
deriving DecidableEq, Repr

/-- An HTTP response that completed at transport level; the client code
only ever looks at (or ignores) its status. -/
structure HttpResponse where
  status : Nat
deriving DecidableEq, Repr

/-- The environment of one run: for each request, either a transport
error (`.error msg`, the case where the Go `http.Client` returns `err != nil`)
or the decoded payload.  JSON decode failures are representable as decoded
zero values (the Go code ignores the `Decode` error), e.g. `.ok []`. -/
structure World where
  /-- Decoded body of `GET {clientURL}/health` for a candidate member:
  the `map[string]string` that `FindHealthyMember` decodes. -/
  healthResp : Member → Except String (List (String × String))
  /-- Decoded `members` array of `GET {adminBase}/v2/members`. -/
  membersResp : Except String (List JsonMember)
  /-- Response to `DELETE {adminBase}/v2/members/{id}` for a given victim. -/
  removeResp : Member → Except String HttpResponse
  /-- Response to `POST {adminBase}/v2/members`. -/
  addResp : Except String HttpResponse

/-- Go map read `m[k]`: value of the first binding of `k`, or the zero
value `""` when absent (also when the map is nil/empty). -/
def mapGet (kvs : List (String × String)) (k : String) : String :=
  match kvs.find? (fun p => p.1 == k) with
  | some p => p.2
  | none => ""

/-- URL probed by `FindHealthyMember`: `fmt.Sprintf("%s/health", member.ClientURL)`. -/
def healthURL (member : Member) : String :=
  member.ClientURL ++ "/health"

/-- URL of `ListMembers` and `AddMember`: `fmt.Sprintf("%s/v2/members", hm.ClientURL)`. -/
def membersURL (hm : Member) : String :=
  hm.ClientURL ++ "/v2/members"

/-- URL of `RemoveMember`: `fmt.Sprintf("%s/v2/members/%s", hm.ClientURL, rm.ID)` —
removal addresses the victim by `id`. -/
def removeMemberURL (hm rm : Member) : String :=
  hm.ClientURL ++ "/v2/members/" ++ rm.ID

/-- Body posted by `AddMember`:
`fmt.Sprintf("{\"name\": \"%s\", \"peerURLs\": [\"%s\"]}", am.Name, am.PeerURL)`. -/
def addMemberBody (am : Member) : String :=
  "\x7b\"name\": \"" ++ am.Name ++ "\", \"peerURLs\": [\"" ++ am.PeerURL ++ "\"]\x7d"

/-- The health verdict `FindHealthyMember` reaches for one candidate
(README.md lines 224-243): a transport error (`err != nil`) means the
candidate is skipped, otherwise the decoded body must map `"health"` to
`"true"`.  The HTTP status is never inspected. -/
def isHealthy (w : World) (member : Member) : Bool :=
  match w.healthResp member with
  | .error _ => false
  | .ok jresp => mapGet jresp "health" == "true"

/-- Function `Client.FindHealthyMember` (README.md lines 224-246): probe the
candidates in order, return the first healthy one; when none is healthy
return the error `"No healthy member found"`.  The first component is the
trace of health-probe URLs actually issued. -/
def FindHealthyMember (w : World) : List Member → List String × Except String Member
  | [] => ([], .error "No healthy member found")
  | member :: rest =>
    if isHealthy w member then
      ([healthURL member], .ok member)
    else
      let r := FindHealthyMember w rest
      (healthURL member :: r.1, r.2)

/-- Member built from one decoded `jsonMember` (README.md lines 292-303):
`ID` and `Name` are copied; each URL field is element 0 of the array when
the array is non-empty and stays the zero value `""` otherwise. -/
def memberOfJson (jm : JsonMember) : Member :=
  { ID := jm.Id
    Name := jm.Name
    ClientURL := match jm.ClientURLs with
      | [] => ""
      | u :: _ => u
    PeerURL := match jm.PeerURLs with
      | [] => ""
      | u :: _ => u }

/-- Function `Client.ListMembers` (README.md lines 281-307): on transport error the
error is returned; otherwise one `Member` is appended per decoded element. -/
def ListMembers (w : World) (_hm : Member) : Except String (List Member) :=
  match w.membersResp with
  | .error e => .error e
  | .ok jms => .ok (jms.map memberOfJson)

/-- Function `Client.RemoveMember` (README.md lines 248-262): returns the transport
error when the request does not complete; a completed response makes it
return `nil` — the status of the response is never read. -/
def RemoveMember (resp : Except String HttpResponse) : Except String Unit :=
  match resp with
  | .error e => .error e
  | .ok _ => .ok ()

/-- Function `Client.AddMember` (README.md lines 264-279): returns the transport
error when the POST does not complete; a completed response makes it
return `nil` — the status of the response is never read. -/
def AddMember (resp : Except String HttpResponse) : Except String Unit :=
  match resp with
  | .error e => .error e
  | .ok _ => .ok ()

/-- One admin mutation call issued against the healthy member, as the
reconciler performs it: the request URL (and body for additions) together
with the member the call concerns. -/
inductive AdminCall where
  | removeCall (url : String) (victim : Member)
  | addCall (url : String) (body : String) (am : Member)
deriving DecidableEq, Repr

/-- The `DELETE` call `RemoveStaleMembers` issues for a victim. -/
def mkRemove (hm victim : Member) : AdminCall :=
  .removeCall (removeMemberURL hm victim) victim

/-- The `POST` call `MaybeAddMyself` issues for the local node. -/
def mkAdd (hm am : Member) : AdminCall :=
  .addCall (membersURL hm) (addMemberBody am) am

/-- The `Expected` closure of `RemoveStaleMembers` (main.go lines 270-277):
an existing member counts as expected iff some expected member has the
same `Name` — names are the only join key. -/
def Expected (expectedMembers : List Member) (exiM : Member) : Bool :=
  expectedMembers.any (fun expM => exiM.Name == expM.Name)

/-- Function `RemoveStaleMembers` (main.go lines 264-286): walk the existing roster
in order; for each member that is not expected issue a `RemoveMember`
call; a failed removal is `log.Fatal` — the run aborts there (`some err`)
with no further iteration. -/
def RemoveStaleMembers (w : World) (hm : Member) (expectedMembers : List Member) :
    List Member → List AdminCall × Option String
  | [] => ([], none)
  | exiM :: rest =>
    if Expected expectedMembers exiM then
      RemoveStaleMembers w hm expectedMembers rest
    else
      match RemoveMember (w.removeResp exiM) with
      | .error e => ([mkRemove hm exiM], some e)
      | .ok _ =>
        let r := RemoveStaleMembers w hm expectedMembers rest
        (mkRemove hm exiM :: r.1, r.2)

/-- Function `GetMyself` (main.go lines 288-297): first expected member whose
`Name` equals the local instance id; `none` models the `panic` taken when
no entry matches. -/
def GetMyself (expectedMembers : List Member) (insId : String) : Option Member :=
  expectedMembers.find? (fun member => member.Name == insId)

/-- The message of the panic in `GetMyself`:
`fmt.Sprint` of the missing-instance text and `insId` (two
string operands, so no separating space). -/
def getMyselfPanicMsg (insId : String) : String :=
  "Couldn\x27t find instance in expected members" ++ insId

/-- Function `MaybeAddMyself` (main.go lines 299-317): when no existing member
carries the name of the local node, issue one `AddMember` call; a failed
addition is `log.Fatal` (`some err`). -/
def MaybeAddMyself (w : World) (hm : Member) (existingMembers : List Member)
    (myself : Member) : List AdminCall × Option String :=
  if existingMembers.any (fun member => member.Name == myself.Name) then
    ([], none)
  else
    match AddMember w.addResp with
    | .error e => ([mkAdd hm myself], some e)
    | .ok _ => ([mkAdd hm myself], none)

/-- The `name=peerURL` pairs of the `initCluster` slice of `WriteDropIn`
(main.go lines 320-327), in roster order. -/
def initClusterOf (expectedMembers : List Member) : List String :=
  expectedMembers.map (fun member => member.Name ++ "=" ++ member.PeerURL)

/-- The two values `WriteDropIn` renders into the drop-in file. -/
structure DropIn where
  initialCluster : String
  state : String
deriving DecidableEq, Repr

/-- Function `WriteDropIn` (main.go lines 319-347): `ETCD_INITIAL_CLUSTER` is the
comma-join of the `name=peerURL` pairs of the expected roster, in order;
`ETCD_INITIAL_CLUSTER_STATE` is the given mode. -/
def WriteDropIn (expectedMembers : List Member) (state : String) : DropIn :=
  { initialCluster := String.intercalate "," (initClusterOf expectedMembers)
    state := state }

/-- How one run terminates.  `success` models `WriteDropIn` followed by
normal termination or `os.Exit(0)` — a zero exit; the `fatal*`
constructors model `log.Fatal` (removal/addition failure) and the
`GetMyself` panic — nonzero aborts that emit no drop-in. -/
inductive Outcome where
  | success (d : DropIn)
  | fatalRemove
  | fatalConfig (msg : String)
  | fatalAdd
deriving DecidableEq, Repr

/-- Everything one reconciliation run does. -/
structure RunResult where
  probes : List String
  calls : List AdminCall
  outcome : Outcome
deriving DecidableEq, Repr

/-- Function `main` from the `FindHealthyMember` call onward (main.go lines
128-155): probe candidates; on failure of the probe or of `ListMembers`,
write the `new`-mode drop-in and exit 0; otherwise prune stale members,
resolve the local node in the expected roster, add it when absent, and
write the `existing`-mode drop-in. -/
def runReconcile (w : World) (expectedMembers : List Member) (insId : String) : RunResult :=
  let fh := FindHealthyMember w expectedMembers
  match fh.2 with
  | .error _ => ⟨fh.1, [], .success (WriteDropIn expectedMembers "new")⟩
  | .ok healthyMember =>
    match ListMembers w healthyMember with
    | .error _ => ⟨fh.1, [], .success (WriteDropIn expectedMembers "new")⟩
    | .ok existingMembers =>
      let rs := RemoveStaleMembers w healthyMember expectedMembers existingMembers
      match rs.2 with
      | some _ => ⟨fh.1, rs.1, .fatalRemove⟩
      | none =>
        match GetMyself expectedMembers insId with
        | none => ⟨fh.1, rs.1, .fatalConfig (getMyselfPanicMsg insId)⟩
        | some myself =>
          let ma := MaybeAddMyself w healthyMember existingMembers myself
          match ma.2 with
          | some _ => ⟨fh.1, rs.1 ++ ma.1, .fatalAdd⟩
          | none => ⟨fh.1, rs.1 ++ ma.1, .success (WriteDropIn expectedMembers "existing")⟩

/-- Names of a roster, the join key of the reconciliation. -/
def namesOf (ms : List Member) : List String :=
  ms.map Member.Name

/-- The stale part of the existing roster: members no expected member
shares a name with, in existing-roster order. -/
def staleOf (expectedMembers existingMembers : List Member) : List Member :=
  existingMembers.filter (fun m => !Expected expectedMembers m)

/-- Whether a client call completed (`.ok`) rather than failing at
transport level. -/
def exOk {α : Type} : Except String α → Bool
  | .ok _ => true
  | .error _ => false

theorem exOk_iff {α : Type} (e : Except String α) : exOk e = true ↔ ∃ a, e = .ok a := by
  cases e <;> simp [exOk]

theorem exOk_false_iff {α : Type} (e : Except String α) :
    exOk e = false ↔ ∃ s, e = .error s := by
  cases e <;> simp [exOk]

/-- Evaluation fact: `RemoveMember` succeeds on a completed response. -/
theorem RemoveMember_ok (r : HttpResponse) : RemoveMember (.ok r) = .ok () := rfl

theorem RemoveMember_error (s : String) : RemoveMember (.error s) = .error s := rfl

/-- When the probe of every candidate comes back unhealthy,
`FindHealthyMember` probes them all and fails. -/
theorem FindHealthyMember_none (w : World) (ms : List Member)
    (h : ∀ m ∈ ms, isHealthy w m = false) :
    FindHealthyMember w ms = (ms.map healthURL, .error "No healthy member found") := by
  induction ms with
  | nil => rfl
  | cons x rest ih =>
    have hx : isHealthy w x = false := h x (List.mem_cons_self x rest)
    simp only [FindHealthyMember, hx, Bool.false_eq_true, if_false, List.map_cons]
    rw [ih (fun m hm => h m (List.mem_cons_of_mem x hm))]

/-- Probing returns the first healthy candidate, probing only
the candidates up to and including it. -/
theorem FindHealthyMember_first (w : World) (pre : List Member) (m : Member)
    (post : List Member) (hpre : ∀ x ∈ pre, isHealthy w x = false)
    (hm : isHealthy w m = true) :
    FindHealthyMember w (pre ++ m :: post) = ((pre ++ [m]).map healthURL, .ok m) := by
  induction pre with
  | nil => simp [FindHealthyMember, hm]
  | cons x rest ih =>
    have hx : isHealthy w x = false := hpre x (List.mem_cons_self x rest)
    simp only [List.cons_append, FindHealthyMember, hx, Bool.false_eq_true, if_false,
      List.append_eq]
    rw [ih (fun y hy => hpre y (List.mem_cons_of_mem x hy))]
    simp

/-- When the DELETE of every stale removal completes, `RemoveStaleMembers`
issues exactly one removal per stale member, in existing-roster order,
and does not abort. -/
theorem RemoveStaleMembers_all_ok (w : World) (hm : Member) (R : List Member)
    (ex : List Member) (h : ∀ m ∈ staleOf R ex, exOk (w.removeResp m) = true) :
    RemoveStaleMembers w hm R ex = ((staleOf R ex).map (mkRemove hm), none) := by
  induction ex with
  | nil => rfl
  | cons x rest ih =>
    by_cases hx : Expected R x = true
    · have hs : staleOf R (x :: rest) = staleOf R rest := by
        simp [staleOf, List.filter_cons, hx]
      rw [hs] at h ⊢
      simpa only [RemoveStaleMembers, hx, if_true] using ih h
    · have hxf : Expected R x = false := by simpa using hx
      have hs : staleOf R (x :: rest) = x :: staleOf R rest := by
        simp [staleOf, List.filter_cons, hxf]
      rw [hs] at h
      obtain ⟨r, hr⟩ := (exOk_iff _).1 (h x (List.mem_cons_self x _))
      simp only [RemoveStaleMembers, hxf, Bool.false_eq_true, if_false, hr,
        RemoveMember_ok, hs, List.map_cons]
      rw [ih (fun m hmem => h m (List.mem_cons_of_mem x hmem))]

/-- When the DELETE for stale member `c` fails at transport level and
every stale removal before it completed, `RemoveStaleMembers` stops at
`c`: the removals issued are those for the stale members up to and
including `c`, and the run aborts with the error of `c`. -/
theorem RemoveStaleMembers_abort (w : World) (hm : Member) (R : List Member)
    (ex : List Member) (pre : List Member) (c : Member) (post : List Member) (e : String)
    (hdecomp : staleOf R ex = pre ++ c :: post)
    (hpre : ∀ m ∈ pre, exOk (w.removeResp m) = true)
    (hc : w.removeResp c = .error e) :
    RemoveStaleMembers w hm R ex = ((pre ++ [c]).map (mkRemove hm), some e) := by
  induction ex generalizing pre with
  | nil => simp [staleOf] at hdecomp
  | cons x rest ih =>
    by_cases hx : Expected R x = true
    · have hs : staleOf R (x :: rest) = staleOf R rest := by
        simp [staleOf, List.filter_cons, hx]
      rw [hs] at hdecomp
      simpa only [RemoveStaleMembers, hx, if_true] using ih pre hdecomp hpre
    · have hxf : Expected R x = false := by simpa using hx
      have hs : staleOf R (x :: rest) = x :: staleOf R rest := by
        simp [staleOf, List.filter_cons, hxf]
      rw [hs] at hdecomp
      cases pre with
      | nil =>
        simp only [List.nil_append] at hdecomp
        obtain ⟨hxc, hrest⟩ := List.cons_eq_cons.1 hdecomp
        subst hxc
        simp only [RemoveStaleMembers, hxf, Bool.false_eq_true, if_false, hc,
          RemoveMember_error, List.nil_append, List.map_cons, List.map_nil]
      | cons p pre' =>
        simp only [List.cons_append] at hdecomp
        obtain ⟨hxp, hrest⟩ := List.cons_eq_cons.1 hdecomp
        subst hxp
        obtain ⟨r, hr⟩ := (exOk_iff _).1 (hpre x (List.mem_cons_self x _))
        simp only [RemoveStaleMembers, hxf, Bool.false_eq_true, if_false, hr,
          RemoveMember_ok, List.cons_append, List.map_cons]
        rw [ih pre' hrest (fun m hmem => hpre m (List.mem_cons_of_mem x hmem))]

/-- Every call `RemoveStaleMembers` issues is a removal of an
existing-roster member that no expected member shares a name with. -/
theorem RemoveStaleMembers_victims (w : World) (hm : Member) (R : List Member)
    (ex : List Member) :
    ∀ call ∈ (RemoveStaleMembers w hm R ex).1,
      ∃ v, v ∈ ex ∧ Expected R v = false ∧ call = mkRemove hm v := by
  induction ex with
  | nil => intro call hcall; simp [RemoveStaleMembers] at hcall
  | cons x rest ih =>
    intro call hcall
    by_cases hx : Expected R x = true
    · simp only [RemoveStaleMembers, hx, if_true] at hcall
      obtain ⟨v, hv, hvex, hveq⟩ := ih call hcall
      exact ⟨v, List.mem_cons_of_mem x hv, hvex, hveq⟩
    · have hxf : Expected R x = false := by simpa using hx
      simp only [RemoveStaleMembers, hxf, Bool.false_eq_true, if_false] at hcall
      cases hr : w.removeResp x with
      | error e =>
        rw [hr, RemoveMember_error] at hcall
        simp only [List.mem_singleton] at hcall
        exact ⟨x, List.mem_cons_self x rest, hxf, hcall⟩
      | ok r =>
        rw [hr, RemoveMember_ok] at hcall
        simp only [List.mem_cons] at hcall
        cases hcall with
        | inl hcx => exact ⟨x, List.mem_cons_self x rest, hxf, hcx⟩
        | inr hcr =>
          obtain ⟨v, hv, hvex, hveq⟩ := ih call hcr
          exact ⟨v, List.mem_cons_of_mem x hv, hvex, hveq⟩

/-- When some existing member carries the name of the local node, no addition
is issued. -/
theorem MaybeAddMyself_present (w : World) (hm : Member) (existingMembers : List Member)
    (myself : Member)
    (h : myself.Name ∈ namesOf existingMembers) :
    MaybeAddMyself w hm existingMembers myself = ([], none) := by
  have : existingMembers.any (fun member => member.Name == myself.Name) = true := by
    simp only [namesOf, List.mem_map] at h
    obtain ⟨m, hmem, hname⟩ := h
    exact List.any_eq_true.2 ⟨m, hmem, by simp [hname]⟩
  simp [MaybeAddMyself, this]

/-- When no existing member carries the name of the local node and the POST
completes, exactly one addition is issued and the run proceeds. -/
theorem MaybeAddMyself_absent_ok (w : World) (hm : Member) (existingMembers : List Member)
    (myself : Member) (r : HttpResponse)
    (h : myself.Name ∉ namesOf existingMembers)
    (hr : w.addResp = .ok r) :
    MaybeAddMyself w hm existingMembers myself = ([mkAdd hm myself], none) := by
  have : existingMembers.any (fun member => member.Name == myself.Name) = false := by
    rw [Bool.eq_false_iff]
    intro hany
    obtain ⟨m, hmem, hname⟩ := List.any_eq_true.1 hany
    exact h (by simp only [namesOf, List.mem_map]; exact ⟨m, hmem, by simpa using hname⟩)
  simp [MaybeAddMyself, this, hr, AddMember]

/-- When no existing member carries the name of the local node and the POST
fails at transport level, the addition call is issued and the run aborts. -/
theorem MaybeAddMyself_absent_error (w : World) (hm : Member) (existingMembers : List Member)
    (myself : Member) (e : String)
    (h : myself.Name ∉ namesOf existingMembers)
    (hr : w.addResp = .error e) :
    MaybeAddMyself w hm existingMembers myself = ([mkAdd hm myself], some e) := by
  have : existingMembers.any (fun member => member.Name == myself.Name) = false := by
    rw [Bool.eq_false_iff]
    intro hany
    obtain ⟨m, hmem, hname⟩ := List.any_eq_true.1 hany
    exact h (by simp only [namesOf, List.mem_map]; exact ⟨m, hmem, by simpa using hname⟩)
  simp [MaybeAddMyself, this, hr, AddMember]

/-- When the initial health probing finds no healthy member, the run
makes no admin call and ends successfully in mode `new`. -/
theorem runReconcile_noHealthy (w : World) (R : List Member) (insId : String)
    (e : String) (h : (FindHealthyMember w R).2 = .error e) :
    runReconcile w R insId =
      ⟨(FindHealthyMember w R).1, [], .success (WriteDropIn R "new")⟩ := by
  simp only [runReconcile, h]

/-- When a healthy member was found but the member listing fails at
transport level, the run makes no admin call and ends successfully in
mode `new`. -/
theorem runReconcile_listError (w : World) (R : List Member) (insId : String)
    (hm : Member) (e : String)
    (hfh : (FindHealthyMember w R).2 = .ok hm)
    (hms : w.membersResp = .error e) :
    runReconcile w R insId =
      ⟨(FindHealthyMember w R).1, [], .success (WriteDropIn R "new")⟩ := by
  simp only [runReconcile, hfh, ListMembers, hms]

/-- Unfolding of the run past a successful probe and a successful member
listing: the rest of `main` is pruning, self lookup and self addition. -/
theorem runReconcile_listOk (w : World) (R : List Member) (insId : String)
    (hm : Member) (jms : List JsonMember)
    (hfh : (FindHealthyMember w R).2 = .ok hm)
    (hms : w.membersResp = .ok jms) :
    runReconcile w R insId =
      (let existingMembers := jms.map memberOfJson
       let rs := RemoveStaleMembers w hm R existingMembers
       match rs.2 with
       | some _ => ⟨(FindHealthyMember w R).1, rs.1, .fatalRemove⟩
       | none =>
         match GetMyself R insId with
         | none => ⟨(FindHealthyMember w R).1, rs.1, .fatalConfig (getMyselfPanicMsg insId)⟩
         | some myself =>
           let ma := MaybeAddMyself w hm existingMembers myself
           match ma.2 with
           | some _ => ⟨(FindHealthyMember w R).1, rs.1 ++ ma.1, .fatalAdd⟩
           | none =>
             ⟨(FindHealthyMember w R).1, rs.1 ++ ma.1,
               .success (WriteDropIn R "existing")⟩) := by
  simp only [runReconcile, hfh, ListMembers, hms]

/-- Membership test `Expected` holds exactly when the name occurs among the
names of the expected roster. -/
theorem Expected_iff (R : List Member) (m : Member) :
    Expected R m = true ↔ m.Name ∈ namesOf R := by
  simp only [Expected, List.any_eq_true, beq_iff_eq, namesOf, List.mem_map]
  constructor
  · rintro ⟨x, hx, hname⟩
    exact ⟨x, hx, hname.symm⟩
  · rintro ⟨x, hx, hname⟩
    exact ⟨x, hx, hname.symm⟩

/-- When the local id occurs among the expected names, `GetMyself`
returns the first matching entry (a member of the roster bearing that
name) instead of panicking. -/
theorem GetMyself_mem (R : List Member) (insId : String) (h : insId ∈ namesOf R) :
    ∃ myself, GetMyself R insId = some myself ∧ myself.Name = insId ∧ myself ∈ R := by
  simp only [namesOf, List.mem_map] at h
  obtain ⟨m, hmem, hname⟩ := h
  have hsome : (R.find? (fun member => member.Name == insId)).isSome := by
    rw [List.find?_isSome]
    exact ⟨m, hmem, by simp [hname]⟩
  obtain ⟨myself, hmy⟩ := Option.isSome_iff_exists.1 hsome
  refine ⟨myself, hmy, ?_, List.mem_of_find?_eq_some hmy⟩
  simpa using List.find?_some hmy

/-- When the local id occurs among no expected name, `GetMyself` panics. -/
theorem GetMyself_absent (R : List Member) (insId : String) (h : insId ∉ namesOf R) :
    GetMyself R insId = none := by
  rw [GetMyself, List.find?_eq_none]
  intro m hmem
  simp only [beq_iff_eq]
  intro hname
  exact h (by simp only [namesOf, List.mem_map]; exact ⟨m, hmem, hname⟩)

/-- Every successfully emitted drop-in was produced by `WriteDropIn` on
the expected roster, in mode `new` or mode `existing`. -/
theorem runReconcile_success_shape (w : World) (R : List Member) (insId : String)
    (d : DropIn) (h : (runReconcile w R insId).outcome = .success d) :
    d = WriteDropIn R "new" ∨ d = WriteDropIn R "existing" := by
  cases hfh : (FindHealthyMember w R).2 with
  | error e =>
    rw [runReconcile_noHealthy w R insId e hfh] at h
    exact Or.inl (Outcome.success.inj h).symm
  | ok hm =>
    cases hms : w.membersResp with
    | error e =>
      rw [runReconcile_listError w R insId hm e hfh hms] at h
      exact Or.inl (Outcome.success.inj h).symm
    | ok jms =>
      rw [runReconcile_listOk w R insId hm jms hfh hms] at h
      simp only at h
      split at h
      · simp at h
      · split at h
        · simp at h
        · split at h
          · simp at h
          · exact Or.inr (Outcome.success.inj h).symm

/-! Concrete fixtures used to evaluate the definitions on closed inputs. -/

/-- Expected-roster entry `A` (inventory entries carry no cluster id). -/
def memA : Member := ⟨"", "A", "http://10.0.0.1:2379", "http://10.0.0.1:2380"⟩

/-- Expected-roster entry `B`. -/
def memB : Member := ⟨"", "B", "http://10.0.0.2:2379", "http://10.0.0.2:2380"⟩

/-- Actual-roster element for `A` as the admin API reports it. -/
def jmA : JsonMember := ⟨"ida", "A", ["http://10.0.0.1:2379"], ["http://10.0.0.1:2380"]⟩

/-- Actual-roster element for `B`. -/
def jmB : JsonMember := ⟨"idb", "B", ["http://10.0.0.2:2379"], ["http://10.0.0.2:2380"]⟩

/-- Actual-roster element for a member `C` that no expected entry names. -/
def jmC : JsonMember := ⟨"idc", "C", ["http://10.0.0.3:2379"], ["http://10.0.0.3:2380"]⟩

/-- A world where every health probe answers healthy, the member listing
decodes to `jms`, and every mutation request completes. -/
def healthyWorld (jms : List JsonMember) : World :=
  { healthResp := fun _ => .ok [("health", "true")]
    membersResp := .ok jms
    removeResp := fun _ => .ok ⟨204⟩
    addResp := .ok ⟨201⟩ }

/-- World `healthyWorld` except that the DELETE for any member named `bad`
fails at transport level. -/
def removeFailWorld (jms : List JsonMember) (bad : String) : World :=
  { healthyWorld jms with
      removeResp := fun v => if v.Name = bad then .error "connection refused" else .ok ⟨204⟩ }

/-- A world where no probe ever completes. -/
def deadWorld : World :=
  { healthResp := fun _ => .error "connection refused"
    membersResp := .error "connection refused"
    removeResp := fun _ => .error "connection refused"
    addResp := .error "connection refused" }

/-- World `healthyWorld` except that the member listing fails at transport
level. -/
def listFailWorld : World :=
  { healthyWorld [] with membersResp := .error "connection refused" }

/-! The claims. -/

/-- C1 — Idempotence of reconciliation: when the actual roster returned
by `listMembers` equals the expected roster `R` member-for-member by name
and the name of the local node occurs in both, the run issues zero `addMember`
and zero `removeMember` calls and emits the drop-in with mode `existing`
and the comma-joined `name=peerURL` pairs of `R`, in the order of `R`. -/
theorem C1_idempotence (w : World) (R : List Member) (insId : String)
    (hm : Member) (jms : List JsonMember)
    (hfh : (FindHealthyMember w R).2 = .ok hm)
    (hms : w.membersResp = .ok jms)
    (hnames : namesOf (jms.map memberOfJson) = namesOf R)
    (hself : insId ∈ namesOf R) :
    (runReconcile w R insId).calls = [] ∧
    (runReconcile w R insId).outcome =
      .success ⟨String.intercalate ","
        (R.map (fun m => m.Name ++ "=" ++ m.PeerURL)), "existing"⟩ := by
  have hstale : staleOf R (jms.map memberOfJson) = [] := by
    rw [staleOf, List.filter_eq_nil_iff]
    intro m hmem
    have hexp : Expected R m = true := by
      rw [Expected_iff, ← hnames]
      exact List.mem_map_of_mem Member.Name hmem
    simp [hexp]
  have hrs : RemoveStaleMembers w hm R (jms.map memberOfJson) = ([], none) := by
    have h0 := RemoveStaleMembers_all_ok w hm R (jms.map memberOfJson)
      (by rw [hstale]; intro m hmem; simp at hmem)
    rw [hstale] at h0
    simpa using h0
  obtain ⟨myself, hmy, hmyname, _⟩ := GetMyself_mem R insId hself
  have hma : MaybeAddMyself w hm (jms.map memberOfJson) myself = ([], none) :=
    MaybeAddMyself_present w hm (jms.map memberOfJson) myself
      (by rw [hmyname, hnames]; exact hself)
  rw [runReconcile_listOk w R insId hm jms hfh hms]
  simp [hrs, hmy, hma, WriteDropIn, initClusterOf]

/-- C1 witness: a two-member roster already converged, local node `B`. -/
theorem C1_idempotence_witness :
    (runReconcile (healthyWorld [jmA, jmB]) [memA, memB] "B").calls = [] ∧
    (runReconcile (healthyWorld [jmA, jmB]) [memA, memB] "B").outcome =
      .success ⟨String.intercalate ","
        ([memA, memB].map (fun m => m.Name ++ "=" ++ m.PeerURL)), "existing"⟩ :=
  C1_idempotence (healthyWorld [jmA, jmB]) [memA, memB] "B" memA [jmA, jmB]
    rfl rfl (by decide) (by decide)

/-- C6 — Directive reflects target topology: whatever the world does, a
successfully emitted drop-in carries the comma-joined `name=peerURL` pair
of every expected member, in expected-roster order, and a mode that
is `new` or `existing`. -/
theorem C6_directive_target_topology (w : World) (R : List Member) (insId : String)
    (d : DropIn) (h : (runReconcile w R insId).outcome = .success d) :
    d.initialCluster = String.intercalate ","
      (R.map (fun m => m.Name ++ "=" ++ m.PeerURL)) ∧
    (d.state = "new" ∨ d.state = "existing") := by
  rcases runReconcile_success_shape w R insId d h with hd | hd <;>
    · subst hd
      exact ⟨rfl, by simp [WriteDropIn]⟩

/-- C6 witness: a dead world emits the `new`-mode drop-in with the full
expected pair list. -/
theorem C6_directive_target_topology_witness :
    (WriteDropIn [memA, memB] "new").initialCluster = String.intercalate ","
      ([memA, memB].map (fun m => m.Name ++ "=" ++ m.PeerURL)) ∧
    ((WriteDropIn [memA, memB] "new").state = "new" ∨
      (WriteDropIn [memA, memB] "new").state = "existing") :=
  C6_directive_target_topology deadWorld [memA, memB] "A" (WriteDropIn [memA, memB] "new")
    (by rw [runReconcile_noHealthy deadWorld [memA, memB] "A" "No healthy member found" rfl])

/-- C5 — Degrade-to-new: when no candidate passes its health probe, or a
healthy member was found but the member listing fails, the run issues no
admin mutation call, emits the drop-in with mode `new` and the full
expected `name=peerURL` list, and terminates as a successful (zero) exit
(`Outcome.success` models `os.Exit(0)`, never `log.Fatal`). -/
theorem C5_degrade_to_new (w : World) (R : List Member) (insId : String)
    (hm : Member) (e : String) :
    ((∀ m ∈ R, isHealthy w m = false) →
      (runReconcile w R insId).calls = [] ∧
      (runReconcile w R insId).outcome =
        .success ⟨String.intercalate ","
          (R.map (fun m => m.Name ++ "=" ++ m.PeerURL)), "new"⟩) ∧
    ((FindHealthyMember w R).2 = .ok hm → w.membersResp = .error e →
      (runReconcile w R insId).calls = [] ∧
      (runReconcile w R insId).outcome =
        .success ⟨String.intercalate ","
          (R.map (fun m => m.Name ++ "=" ++ m.PeerURL)), "new"⟩) := by
  constructor
  · intro h
    rw [runReconcile_noHealthy w R insId "No healthy member found"
      (by rw [FindHealthyMember_none w R h])]
    exact ⟨rfl, rfl⟩
  · intro hfh hms
    rw [runReconcile_listError w R insId hm e hfh hms]
    exact ⟨rfl, rfl⟩

/-- C5 witness: a fully unreachable cluster, and a cluster whose healthy
member fails the listing request. -/
theorem C5_degrade_to_new_witness :
    ((runReconcile deadWorld [memA, memB] "A").calls = [] ∧
      (runReconcile deadWorld [memA, memB] "A").outcome =
        .success ⟨String.intercalate ","
          ([memA, memB].map (fun m => m.Name ++ "=" ++ m.PeerURL)), "new"⟩) ∧
    ((runReconcile listFailWorld [memA, memB] "A").calls = [] ∧
      (runReconcile listFailWorld [memA, memB] "A").outcome =
        .success ⟨String.intercalate ","
          ([memA, memB].map (fun m => m.Name ++ "=" ++ m.PeerURL)), "new"⟩) :=
  ⟨(C5_degrade_to_new deadWorld [memA, memB] "A" memA "x").1
      (by intro m _; rfl),
   (C5_degrade_to_new listFailWorld [memA, memB] "A" memA "connection refused").2
      rfl rfl⟩

/-- C7 — `FindHealthyMember` probes the candidates strictly in the given
order, returns the first healthy one probing nothing after it; a
transport failure or a payload that does not map `"health"` to `"true"`
makes the candidate count as unhealthy (never an error) and the next one
is tried; when no candidate is healthy it fails with the
no-healthy-member error. -/
theorem C7_find_healthy_member (w : World) (pre : List Member) (m : Member)
    (post : List Member) (ms : List Member) (err : String)
    (kvs : List (String × String)) :
    ((∀ x ∈ pre, isHealthy w x = false) → isHealthy w m = true →
      FindHealthyMember w (pre ++ m :: post) = ((pre ++ [m]).map healthURL, .ok m)) ∧
    ((∀ x ∈ ms, isHealthy w x = false) →
      FindHealthyMember w ms = (ms.map healthURL, .error "No healthy member found")) ∧
    (w.healthResp m = .error err → isHealthy w m = false) ∧
    (w.healthResp m = .ok kvs → mapGet kvs "health" ≠ "true" → isHealthy w m = false) := by
  refine ⟨FindHealthyMember_first w pre m post, FindHealthyMember_none w ms, ?_, ?_⟩
  · intro h
    simp [isHealthy, h]
  · intro h hne
    simp [isHealthy, h, hne]

/-- A world where member `A` is unreachable, member `C` answers a payload
that does not assert health, and every other member answers healthy. -/
def mixedHealthWorld : World :=
  { healthyWorld [jmA, jmB] with
      healthResp := fun m =>
        if m.Name = "A" then .error "connection refused"
        else if m.Name = "C" then .ok [("health", "false")]
        else .ok [("health", "true")] }

/-- Member `C` as the actual roster records it. -/
def memC : Member := ⟨"idc", "C", "http://10.0.0.3:2379", "http://10.0.0.3:2380"⟩

/-- C7 witness: with `A` unreachable and `C` unhealthy, probing
`[A, C, B, A]` probes `A`, `C`, `B` and stops at `B`; probing `[A, C]`
fails; both non-healthy verdicts come from the two unhealthy shapes. -/
theorem C7_find_healthy_member_witness :
    FindHealthyMember mixedHealthWorld [memA, memC, memB, memA] =
      ([memA, memC, memB].map healthURL, .ok memB) ∧
    FindHealthyMember mixedHealthWorld [memA, memC] =
      ([memA, memC].map healthURL, .error "No healthy member found") ∧
    isHealthy mixedHealthWorld memA = false ∧
    isHealthy mixedHealthWorld memC = false :=
  ⟨(C7_find_healthy_member mixedHealthWorld [memA, memC] memB [memA] [] "e" []).1
      (by decide) (by decide),
   (C7_find_healthy_member mixedHealthWorld [] memB [] [memA, memC] "e" []).2.1
      (by decide),
   (C7_find_healthy_member mixedHealthWorld [] memA [] [] "connection refused" []).2.2.1
      rfl,
   (C7_find_healthy_member mixedHealthWorld [] memC [] [] "e" [("health", "false")]).2.2.2
      rfl (by decide)⟩

/-- Whether an admin call is a removal. -/
def isRemove : AdminCall → Bool
  | .removeCall _ _ => true
  | .addCall _ _ _ => false

/-- The removal calls of a trace, in order. -/
def removesOf (calls : List AdminCall) : List AdminCall :=
  calls.filter isRemove

theorem removesOf_map_mkRemove (hm : Member) (xs : List Member) :
    removesOf (xs.map (mkRemove hm)) = xs.map (mkRemove hm) := by
  rw [removesOf, List.filter_eq_self]
  intro a ha
  obtain ⟨v, _, rfl⟩ := List.mem_map.1 ha
  rfl

/-- Once a healthy member answered the member listing, the whole-run call
trace is the pruning trace followed by at most one addition of the
resolved local entry, an addition issued only when the name of that entry is
absent from the actual roster. -/
theorem runReconcile_calls_decompose (w : World) (R : List Member) (insId : String)
    (hm : Member) (jms : List JsonMember)
    (hfh : (FindHealthyMember w R).2 = .ok hm)
    (hms : w.membersResp = .ok jms) :
    ∃ addSuffix,
      (runReconcile w R insId).calls =
        (RemoveStaleMembers w hm R (jms.map memberOfJson)).1 ++ addSuffix ∧
      (addSuffix = [] ∨
        ∃ myself, GetMyself R insId = some myself ∧
          myself.Name ∉ namesOf (jms.map memberOfJson) ∧
          addSuffix = [mkAdd hm myself]) := by
  rw [runReconcile_listOk w R insId hm jms hfh hms]
  simp only
  cases hrs2 : (RemoveStaleMembers w hm R (jms.map memberOfJson)).2 with
  | some e =>
    refine ⟨[], by simp [hrs2], Or.inl rfl⟩
  | none =>
    cases hmy : GetMyself R insId with
    | none =>
      refine ⟨[], by simp [hrs2, hmy], Or.inl rfl⟩
    | some myself =>
      by_cases hpresent : myself.Name ∈ namesOf (jms.map memberOfJson)
      · have hma := MaybeAddMyself_present w hm (jms.map memberOfJson) myself hpresent
        refine ⟨[], by simp [hrs2, hmy, hma], Or.inl rfl⟩
      · cases haddr : w.addResp with
        | error e =>
          have hma := MaybeAddMyself_absent_error w hm (jms.map memberOfJson) myself e
            hpresent haddr
          exact ⟨[mkAdd hm myself], by simp [hrs2, hmy, hma],
            Or.inr ⟨myself, rfl, hpresent, rfl⟩⟩
        | ok r =>
          have hma := MaybeAddMyself_absent_ok w hm (jms.map memberOfJson) myself r
            hpresent haddr
          exact ⟨[mkAdd hm myself], by simp [hrs2, hmy, hma],
            Or.inr ⟨myself, rfl, hpresent, rfl⟩⟩

/-- C3 — Stale pruning: past a successful probe and listing, (a) when
every stale DELETE completes, the removal trace is exactly one removal
per actual-roster member whose name no expected member carries, in the
order of the actual roster; (b) every removal the run ever issues targets,
through the `id`-addressed URL, a member whose name is absent from the
expected roster; (c) the first stale DELETE that fails at transport level
aborts the whole run at that member: the removals issued stop there and
the run exits fatally instead of skipping it. -/
theorem C3_stale_pruning (w : World) (R : List Member) (insId : String)
    (hm : Member) (jms : List JsonMember) (actual : List Member)
    (pre : List Member) (c : Member) (post : List Member) (e : String)
    (hfh : (FindHealthyMember w R).2 = .ok hm)
    (hms : w.membersResp = .ok jms)
    (hactual : actual = jms.map memberOfJson) :
    ((∀ m ∈ staleOf R actual, exOk (w.removeResp m) = true) →
      removesOf (runReconcile w R insId).calls = (staleOf R actual).map (mkRemove hm)) ∧
    (∀ call ∈ (runReconcile w R insId).calls, ∀ u v, call = .removeCall u v →
      v.Name ∉ namesOf R ∧ u = removeMemberURL hm v) ∧
    (staleOf R actual = pre ++ c :: post →
      (∀ m ∈ pre, exOk (w.removeResp m) = true) →
      w.removeResp c = .error e →
      (runReconcile w R insId).calls = (pre ++ [c]).map (mkRemove hm) ∧
      (runReconcile w R insId).outcome = .fatalRemove) := by
  subst hactual
  obtain ⟨addSuffix, hcalls, hsuffix⟩ :=
    runReconcile_calls_decompose w R insId hm jms hfh hms
  refine ⟨?_, ?_, ?_⟩
  · intro hrem
    have hrs := RemoveStaleMembers_all_ok w hm R (jms.map memberOfJson) hrem
    have hsuf : removesOf addSuffix = [] := by
      rcases hsuffix with rfl | ⟨myself, _, _, rfl⟩ <;> rfl
    rw [hcalls, hrs]
    show removesOf
      (List.map (mkRemove hm) (staleOf R (jms.map memberOfJson)) ++ addSuffix) = _
    rw [removesOf, List.filter_append]
    rw [removesOf] at hsuf
    rw [hsuf, List.append_nil]
    exact removesOf_map_mkRemove hm _
  · intro call hcall u v hcv
    rw [hcalls] at hcall
    rcases List.mem_append.1 hcall with hin | hin
    · obtain ⟨v0, _, hv0, hveq⟩ := RemoveStaleMembers_victims w hm R _ call hin
      rw [hveq, mkRemove] at hcv
      obtain ⟨hu, hv⟩ := AdminCall.removeCall.inj hcv.symm
      subst hv
      refine ⟨?_, hu⟩
      intro hmem
      rw [← Expected_iff] at hmem
      rw [hmem] at hv0
      exact Bool.true_eq_false.mp hv0
    · rcases hsuffix with rfl | ⟨myself, _, _, rfl⟩
      · simp at hin
      · rw [List.mem_singleton] at hin
        subst hin
        simp [mkAdd] at hcv
  · intro hdecomp hpre hc
    have hrs := RemoveStaleMembers_abort w hm R (jms.map memberOfJson)
      pre c post e hdecomp hpre hc
    rw [runReconcile_listOk w R insId hm jms hfh hms]
    simp [hrs]

/-- C3 witness: expected `{A,B}`, actual `{A,C,B}`: exactly one DELETE,
for `C`, by its id; and in a world where the DELETE of `C` fails at transport
level the run aborts right at that removal. -/
theorem C3_stale_pruning_witness :
    removesOf (runReconcile (healthyWorld [jmA, jmC, jmB]) [memA, memB] "A").calls =
      (staleOf [memA, memB] ([jmA, jmC, jmB].map memberOfJson)).map (mkRemove memA) ∧
    (memC.Name ∉ namesOf [memA, memB] ∧
      removeMemberURL memA memC = removeMemberURL memA memC) ∧
    ((runReconcile (removeFailWorld [jmA, jmC, jmB] "C") [memA, memB] "A").calls =
      ([] ++ [memC]).map (mkRemove memA) ∧
     (runReconcile (removeFailWorld [jmA, jmC, jmB] "C") [memA, memB] "A").outcome =
      .fatalRemove) :=
  ⟨(C3_stale_pruning (healthyWorld [jmA, jmC, jmB]) [memA, memB] "A" memA [jmA, jmC, jmB]
      ([jmA, jmC, jmB].map memberOfJson) [] memC [] "e" rfl rfl rfl).1 (by decide),
   (C3_stale_pruning (healthyWorld [jmA, jmC, jmB]) [memA, memB] "A" memA [jmA, jmC, jmB]
      ([jmA, jmC, jmB].map memberOfJson) [] memC [] "e" rfl rfl rfl).2.1
      (mkRemove memA memC) (by decide) (removeMemberURL memA memC) memC rfl,
   (C3_stale_pruning (removeFailWorld [jmA, jmC, jmB] "C") [memA, memB] "A" memA
      [jmA, jmC, jmB] ([jmA, jmC, jmB].map memberOfJson) [] memC [] "connection refused"
      rfl rfl rfl).2.2 (by decide) (by simp) rfl⟩

/-- The result of `GetMyself` carries the local id as its name and is an entry
of the expected roster. -/
theorem GetMyself_name (R : List Member) (insId : String) (myself : Member)
    (h : GetMyself R insId = some myself) :
    myself.Name = insId ∧ myself ∈ R :=
  ⟨by simpa using List.find?_some h, List.mem_of_find?_eq_some h⟩

/-- C4 — Self-admission: past a successful probe and listing with all
stale removals completing, when the name of the local node is absent from the
actual roster the run issues exactly one `addMember` call, carrying the
name and peerURL of the resolved expected entry in its body, after all
removals, and then emits mode `existing`; when the local name is present
in the actual roster, zero `addMember` calls are issued.  The resolved
entry is the one the expected roster holds for the local id. -/
theorem C4_self_admission (w : World) (R : List Member) (insId : String)
    (hm myself : Member) (jms : List JsonMember) (actual : List Member) (r : HttpResponse)
    (hfh : (FindHealthyMember w R).2 = .ok hm)
    (hms : w.membersResp = .ok jms)
    (hactual : actual = jms.map memberOfJson)
    (hrem : ∀ m ∈ staleOf R actual, exOk (w.removeResp m) = true)
    (hmy : GetMyself R insId = some myself) :
    (insId ∉ namesOf actual → w.addResp = .ok r →
      (runReconcile w R insId).calls =
        (staleOf R actual).map (mkRemove hm) ++ [mkAdd hm myself] ∧
      (runReconcile w R insId).outcome = .success (WriteDropIn R "existing")) ∧
    (insId ∈ namesOf actual →
      (runReconcile w R insId).calls = (staleOf R actual).map (mkRemove hm) ∧
      (runReconcile w R insId).outcome = .success (WriteDropIn R "existing")) ∧
    myself ∈ R ∧ myself.Name = insId := by
  subst hactual
  have hrs := RemoveStaleMembers_all_ok w hm R (jms.map memberOfJson) hrem
  obtain ⟨hmyname, hmymem⟩ := GetMyself_name R insId myself hmy
  refine ⟨?_, ?_, hmymem, hmyname⟩
  · intro habsent haddr
    rw [← hmyname] at habsent
    have hma := MaybeAddMyself_absent_ok w hm (jms.map memberOfJson) myself r habsent haddr
    rw [runReconcile_listOk w R insId hm jms hfh hms]
    simp [hrs, hmy, hma]
  · intro hpresent
    rw [← hmyname] at hpresent
    have hma := MaybeAddMyself_present w hm (jms.map memberOfJson) myself hpresent
    rw [runReconcile_listOk w R insId hm jms hfh hms]
    simp [hrs, hmy, hma]

/-- C4 witness: expected `{A,B}`, local `B`: with actual `{A}` exactly
one POST for `B` after zero removals; with actual `{A,B}` zero POSTs. -/
theorem C4_self_admission_witness :
    ((runReconcile (healthyWorld [jmA]) [memA, memB] "B").calls =
        (staleOf [memA, memB] ([jmA].map memberOfJson)).map (mkRemove memA) ++
          [mkAdd memA memB] ∧
      (runReconcile (healthyWorld [jmA]) [memA, memB] "B").outcome =
        .success (WriteDropIn [memA, memB] "existing")) ∧
    ((runReconcile (healthyWorld [jmA, jmB]) [memA, memB] "B").calls =
        (staleOf [memA, memB] ([jmA, jmB].map memberOfJson)).map (mkRemove memA) ∧
      (runReconcile (healthyWorld [jmA, jmB]) [memA, memB] "B").outcome =
        .success (WriteDropIn [memA, memB] "existing")) :=
  ⟨(C4_self_admission (healthyWorld [jmA]) [memA, memB] "B" memA memB [jmA]
      ([jmA].map memberOfJson) ⟨201⟩ rfl rfl rfl (by decide) rfl).1
      (by decide) rfl,
   (C4_self_admission (healthyWorld [jmA, jmB]) [memA, memB] "B" memA memB [jmA, jmB]
      ([jmA, jmB].map memberOfJson) ⟨201⟩ rfl rfl rfl (by decide) rfl).2.1
      (by decide)⟩

/-- C9 — `ListMembers` tolerates empty URL arrays: a decoded members
array yields exactly one `Member` per element (no fault), each URL field
taking only element 0 of a non-empty array — the rest is lossy — and
staying the zero value `""` when the array is empty. -/
theorem C9_list_members_empty_urls (w : World) (hm : Member) (jms : List JsonMember)
    (hms : w.membersResp = .ok jms) :
    ListMembers w hm = .ok (jms.map memberOfJson) ∧
    (jms.map memberOfJson).length = jms.length ∧
    (∀ jm : JsonMember, jm.ClientURLs = [] → (memberOfJson jm).ClientURL = "") ∧
    (∀ jm : JsonMember, jm.PeerURLs = [] → (memberOfJson jm).PeerURL = "") ∧
    (∀ (jm : JsonMember) (u : String) (us : List String),
      jm.ClientURLs = u :: us → (memberOfJson jm).ClientURL = u) ∧
    (∀ (jm : JsonMember) (u : String) (us : List String),
      jm.PeerURLs = u :: us → (memberOfJson jm).PeerURL = u) ∧
    (∀ jm : JsonMember, (memberOfJson jm).ID = jm.Id ∧ (memberOfJson jm).Name = jm.Name) := by
  refine ⟨by simp [ListMembers, hms], List.length_map jms memberOfJson, ?_, ?_, ?_, ?_, ?_⟩
  · intro jm h
    simp [memberOfJson, h]
  · intro jm h
    simp [memberOfJson, h]
  · intro jm u us h
    simp [memberOfJson, h]
  · intro jm u us h
    simp [memberOfJson, h]
  · intro jm
    exact ⟨rfl, rfl⟩

/-- A member mid-join, recorded with empty URL arrays. -/
def jmJoining : JsonMember := ⟨"idn", "N", [], []⟩

/-- A member whose URL arrays have two elements. -/
def jmDoubled : JsonMember :=
  ⟨"idd", "D", ["http://10.0.0.4:2379", "http://10.0.0.9:2379"],
    ["http://10.0.0.4:2380", "http://10.0.0.9:2380"]⟩

/-- C9 witness: a roster holding a mid-join member (empty URL arrays) and
a member with two URLs decodes to one `Member` each, with the empty
arrays yielding `""` and the longer arrays yielding their element 0. -/
theorem C9_list_members_empty_urls_witness :
    ListMembers (healthyWorld [jmJoining, jmDoubled]) memA =
      .ok ([jmJoining, jmDoubled].map memberOfJson) ∧
    ([jmJoining, jmDoubled].map memberOfJson).length = [jmJoining, jmDoubled].length ∧
    (memberOfJson jmJoining).ClientURL = "" ∧
    (memberOfJson jmJoining).PeerURL = "" ∧
    (memberOfJson jmDoubled).ClientURL = "http://10.0.0.4:2379" ∧
    (memberOfJson jmDoubled).PeerURL = "http://10.0.0.4:2380" ∧
    ((memberOfJson jmJoining).ID = jmJoining.Id ∧
      (memberOfJson jmJoining).Name = jmJoining.Name) :=
  (fun h => ⟨h.1, h.2.1,
    h.2.2.1 jmJoining rfl,
    h.2.2.2.1 jmJoining rfl,
    h.2.2.2.2.1 jmDoubled "http://10.0.0.4:2379" ["http://10.0.0.9:2379"] rfl,
    h.2.2.2.2.2.1 jmDoubled "http://10.0.0.4:2380" ["http://10.0.0.9:2380"] rfl,
    h.2.2.2.2.2.2 jmJoining⟩)
    (C9_list_members_empty_urls (healthyWorld [jmJoining, jmDoubled]) memA
      [jmJoining, jmDoubled] rfl)

/-- The name of the member an admin mutation call concerns: the victim of
a removal, the submitted entry of an addition. -/
def callName : AdminCall → String
  | .removeCall _ v => v.Name
  | .addCall _ _ am => am.Name

/-- C10 — Name-only reconciliation: for every actual-roster member whose
name also occurs in the expected roster — even when its id, clientURL or
peerURL differ between the two — the run issues no admin mutation call
concerning that member: no call, removal or addition, carries its name. -/
theorem C10_name_only_reconciliation (w : World) (R : List Member) (insId : String)
    (hm : Member) (jms : List JsonMember) (m : Member)
    (hfh : (FindHealthyMember w R).2 = .ok hm)
    (hms : w.membersResp = .ok jms)
    (hmem : m ∈ jms.map memberOfJson)
    (hname : m.Name ∈ namesOf R) :
    ∀ call ∈ (runReconcile w R insId).calls, callName call ≠ m.Name := by
  obtain ⟨addSuffix, hcalls, hsuffix⟩ :=
    runReconcile_calls_decompose w R insId hm jms hfh hms
  intro call hcall
  rw [hcalls] at hcall
  rcases List.mem_append.1 hcall with hin | hin
  · obtain ⟨v, _, hv, hveq⟩ := RemoveStaleMembers_victims w hm R _ call hin
    subst hveq
    show v.Name ≠ m.Name
    intro heq
    have : Expected R v = true := (Expected_iff R v).2 (heq ▸ hname)
    rw [this] at hv
    exact Bool.true_eq_false.mp hv
  · rcases hsuffix with rfl | ⟨myself, _, habsent, rfl⟩
    · simp at hin
    · rw [List.mem_singleton] at hin
      subst hin
      show myself.Name ≠ m.Name
      intro heq
      exact habsent (heq ▸ List.mem_map_of_mem Member.Name hmem)

/-- Actual-roster record for `A` whose id and URLs have drifted from the
inventory entry of the same name. -/
def jmDriftedA : JsonMember :=
  ⟨"idx", "A", ["http://10.9.9.9:2379"], ["http://10.9.9.9:2380"]⟩

/-- C10 witness: actual roster `{A (drifted), C}`, expected `{A,B}`,
local `B`: the two calls of the run — removing `C`, adding `B` — concern
neither removal nor addition of the drifted `A`. -/
theorem C10_name_only_reconciliation_witness :
    callName (mkRemove memA memC) ≠ (memberOfJson jmDriftedA).Name ∧
    callName (mkAdd memA memB) ≠ (memberOfJson jmDriftedA).Name :=
  ⟨C10_name_only_reconciliation (healthyWorld [jmDriftedA, jmC]) [memA, memB] "B"
      memA [jmDriftedA, jmC] (memberOfJson jmDriftedA) rfl rfl (by decide) (by decide)
      (mkRemove memA memC) (by decide),
   C10_name_only_reconciliation (healthyWorld [jmDriftedA, jmC]) [memA, memB] "B"
      memA [jmDriftedA, jmC] (memberOfJson jmDriftedA) rfl rfl (by decide) (by decide)
      (mkAdd memA memB) (by decide)⟩

/-- Claim C2 as stated: whenever the local name is absent from the
expected roster, for every actual roster the run fails with the
ConfigurationError panic with no admin mutation call issued before the
failure. -/
def missingSelfAtomicity : Prop :=
  ∀ (w : World) (R : List Member) (insId : String) (hm : Member) (jms : List JsonMember),
    (FindHealthyMember w R).2 = .ok hm →
    w.membersResp = .ok jms →
    insId ∉ namesOf R →
    (runReconcile w R insId).outcome = .fatalConfig (getMyselfPanicMsg insId) ∧
    (runReconcile w R insId).calls = []

/-- C2 counterexample: expected `{A}`, local `Z`, actual `{A, C}` — the
run does fail with the ConfigurationError panic, but only after removing
stale member `C`, so a `removeMember` call precedes the failure. -/
theorem C2_missing_self_cex : ¬ missingSelfAtomicity := by
  intro h
  have h2 := (h (healthyWorld [jmA, jmC]) [memA] "Z" memA [jmA, jmC] rfl rfl
    (by decide)).2
  exact absurd h2 (by decide)

/-- C2 amended — Missing-self after pruning: for every expected roster
not containing the name of the local node, once a healthy member answered the
listing and every stale removal completed, the run fails with the
ConfigurationError panic before issuing any `addMember` call, but only
after issuing the stale `removeMember` calls (every call in the trace is
a removal). -/
theorem C2_missing_self_amended (w : World) (R : List Member) (insId : String)
    (hm : Member) (jms : List JsonMember)
    (hfh : (FindHealthyMember w R).2 = .ok hm)
    (hms : w.membersResp = .ok jms)
    (habsent : insId ∉ namesOf R)
    (hrem : ∀ m ∈ staleOf R (jms.map memberOfJson), exOk (w.removeResp m) = true) :
    (runReconcile w R insId).outcome = .fatalConfig (getMyselfPanicMsg insId) ∧
    (runReconcile w R insId).calls =
      (staleOf R (jms.map memberOfJson)).map (mkRemove hm) ∧
    ∀ call ∈ (runReconcile w R insId).calls, isRemove call = true := by
  have hrs := RemoveStaleMembers_all_ok w hm R (jms.map memberOfJson) hrem
  have hmy := GetMyself_absent R insId habsent
  rw [runReconcile_listOk w R insId hm jms hfh hms]
  simp only [hrs, hmy]
  refine ⟨by trivial, by trivial, ?_⟩
  intro call hcall
  obtain ⟨v, _, rfl⟩ := List.mem_map.1 hcall
  rfl

/-- C2 amended witness: expected `{A}`, local `Z`, actual `{A, C}`. -/
theorem C2_missing_self_amended_witness :
    (runReconcile (healthyWorld [jmA, jmC]) [memA] "Z").outcome =
      .fatalConfig (getMyselfPanicMsg "Z") ∧
    (runReconcile (healthyWorld [jmA, jmC]) [memA] "Z").calls =
      (staleOf [memA] ([jmA, jmC].map memberOfJson)).map (mkRemove memA) ∧
    ∀ call ∈ (runReconcile (healthyWorld [jmA, jmC]) [memA] "Z").calls,
      isRemove call = true :=
  C2_missing_self_amended (healthyWorld [jmA, jmC]) [memA] "Z" memA [jmA, jmC]
    rfl rfl (by decide) (by decide)

/-- The acceptance predicate the spec states for admin mutations: a status in the
2xx range. -/
def specAccepts2xx (status : Nat) : Bool :=
  decide (200 ≤ status ∧ status < 300)

/-- Claim C8 as stated: an `addMember` or `removeMember` request that
completes with an HTTP response reports success exactly when the status
is 2xx. -/
def accepts2xxContract : Prop :=
  ∀ r : HttpResponse,
    exOk (RemoveMember (.ok r)) = specAccepts2xx r.status ∧
    exOk (AddMember (.ok r)) = specAccepts2xx r.status

/-- C8 counterexample: a completed DELETE response with status 500 is
reported as success — the client never reads the status. -/
theorem C8_accepts2xx_cex : ¬ accepts2xxContract := by
  intro h
  exact absurd (h ⟨500⟩).1 (by decide)

/-- C8 amended — transport-only error reporting: `addMember` and
`removeMember` report success exactly when the request completed with
some HTTP response, whatever its status; only a transport-level failure
is reported to the caller (with its error propagated verbatim). -/
theorem C8_transport_only_errors (resp : Except String HttpResponse) (e : String) :
    exOk (RemoveMember resp) = exOk resp ∧
    exOk (AddMember resp) = exOk resp ∧
    RemoveMember (.error e) = .error e ∧
    AddMember (.error e) = .error e := by
  cases resp <;> exact ⟨rfl, rfl, rfl, rfl⟩

end Etcdmate
